import Mathlib

/-!
Shallow embedding of `src/harmony/_chamber.py` (HarmonySearch-py).

Costs and candidate values are modelled as exact rationals (`ℚ`); the
floating-point tolerance comparisons of the source are modelled with the
exact rational values of the numpy constants involved:
`np.finfo(np.float64).eps = 2 ^ (-52)`, `np.finfo(np.float32).eps = 2 ^ (-23)`,
and the `np.allclose` default absolute tolerance `atol = 1e-8`.
-/

namespace Harmony

/-- Default absolute tolerance of `np.allclose` (`atol = 1e-8`).
`__float_compare` (line 289) passes only `rtol`, so every comparison in the
source keeps this default `atol`. -/
def atolNp : ℚ := 1 / 10 ^ 8

/-- Exact value of `np.finfo(np.float64).eps`. -/
def epsF64 : ℚ := 1 / 2 ^ 52

/-- Exact value of `np.finfo(np.float32).eps`. -/
def epsF32 : ℚ := 1 / 2 ^ 23

/-- One scalar comparison of `np.allclose(this, other, rtol=r_tol)`:
`|a - b| <= atol + rtol * |b|`.  Note the asymmetry: `rtol` scales the
absolute value of the second operand only. -/
def allcloseS (rtol a b : ℚ) : Bool := decide (|a - b| ≤ atolNp + rtol * |b|)

/-- Sequence case of `np.allclose` as reached through `__float_compare`
(lines 289-293): sequences of different length compare `False`, otherwise
every componentwise comparison must hold. -/
def allcloseV (rtol : ℚ) (xs ys : List ℚ) : Bool :=
  decide (xs.length = ys.length) && (xs.zip ys).all (fun p => allcloseS rtol p.1 p.2)

/-- `_equal` (lines 285-286) on scalar operands: `rtol = np.finfo(np.float64).eps`. -/
def equalS (a b : ℚ) : Bool := allcloseS epsF64 a b

/-- `_close` (lines 281-282) on scalar operands: `rtol = np.finfo(np.float32).eps`. -/
def closeS (a b : ℚ) : Bool := allcloseS epsF32 a b

/-- `_similar` (lines 277-278) on scalar operands:
`rtol = np.finfo(np.float32).eps * 1000`. -/
def similarS (a b : ℚ) : Bool := allcloseS (epsF32 * 1000) a b

/-- `_equal` on sequence operands. -/
def equalV (xs ys : List ℚ) : Bool := allcloseV epsF64 xs ys

/-- `_close` on sequence operands. -/
def closeV (xs ys : List ℚ) : Bool := allcloseV epsF32 xs ys

/-- `_similar` on sequence operands. -/
def similarV (xs ys : List ℚ) : Bool := allcloseV (epsF32 * 1000) xs ys

/-- The harmony memory `_Memory` (lines 206-246): a candidate matrix (one row
per rank) and the parallel cost array.  The well-formedness invariant of the
source keeps `mem.length = cost.length = __size`; `size` is read off the cost
array here. -/
structure HMemory where
  mem : List (List ℚ)
  cost : List ℚ
  deriving DecidableEq

/-- Memory capacity, `_Memory.size` (lines 235-237). -/
def HMemory.size (m : HMemory) : ℕ := m.cost.length

/-- The slice-shift of `_Memory.insert` (lines 215-220) on one array:
positions `0..i-1` are kept, position `i` receives the new element, the old
elements at `i..len-2` move one slot toward the tail and the old tail entry
leaves the array.  This mirrors `a[i+1:] = a[i:len-1]; a[i] = x` for
`i < len` (the source's precondition `0 <= rank_index < size`). -/
def shiftInsert {α : Type} (l : List α) (i : ℕ) (x : α) : List α :=
  l.take i ++ x :: (l.drop i).take (l.length - 1 - i)

/-- `_Memory.insert` (lines 215-220): the same shift applied to the candidate
matrix and to the cost array. -/
def HMemory.insert (m : HMemory) (i : ℕ) (newMembers : List ℚ) (newCost : ℚ) :
    HMemory :=
  { mem := shiftInsert m.mem i newMembers, cost := shiftInsert m.cost i newCost }

/-- `_Memory.reverse` (lines 227-229): both arrays reversed in place. -/
def HMemory.reverse (m : HMemory) : HMemory :=
  { mem := m.mem.reverse, cost := m.cost.reverse }

/-- `_Memory.sort` (lines 222-225): reindex both arrays by an argsort of the
cost array, ascending for minimize; for maximize the ascending permutation is
reversed (`argsort()[::-1]`).  numpy's default argsort is an unstable
comparison sort, so it is modelled by a comparison sort on the
(cost, candidate) pairs followed by the reversal for maximize. -/
def HMemory.sort (m : HMemory) (maximize : Bool) : HMemory :=
  let pairs := m.cost.zip m.mem
  let asc := List.insertionSort (fun a b : ℚ × List ℚ => a.1 ≤ b.1) pairs
  let ordered := if maximize then asc.reverse else asc
  { mem := ordered.map (fun p => p.2), cost := ordered.map (fun p => p.1) }

/-- Integer indexing of a 1-D numpy array (used by `_Memory.__getitem__`,
lines 242-243, and by reads of the `cost` property, lines 231-233): an index
in `[0, len)` reads directly, a negative index in `[-len, -1]` reads from the
tail, anything else raises `IndexError` (modelled as `none`). -/
def npGet {α : Type} (l : List α) (i : ℤ) : Option α :=
  if 0 ≤ i ∧ i < (l.length : ℤ) then l[i.toNat]?
  else if -(l.length : ℤ) ≤ i ∧ i < 0 then l[(i + (l.length : ℤ)).toNat]?
  else none

/-- Reading a candidate vector by integer index, `memory[i]` (lines 242-243). -/
def HMemory.rowAt (m : HMemory) (i : ℤ) : Option (List ℚ) := npGet m.mem i

/-- Reading a cost by integer index, `memory.cost[i]` (lines 231-233). -/
def HMemory.costAt (m : HMemory) (i : ℤ) : Option ℚ := npGet m.cost i

/-- One candidate produced by the abstract hooks during one execution of the
loop body: `(_select_members(), _calc_cost(members), _violate_constraint(members))`.
The hooks are abstract in the source (lines 149-159), so a run of `search` is
modelled against an arbitrary stream of such triples indexed by the count of
loop-body executions. -/
abbrev Candidate := List ℚ × ℚ × Bool

/-- The mutable state of the `search` loop (lines 84-111): the memory, the
`epoch` counter and the `min_costs` trace. -/
structure LoopState where
  memory : HMemory
  epoch : ℕ
  minCosts : List ℚ
  deriving DecidableEq

/-- The rejection test of lines 92-94:
`violate or (not maximize and new_cost > cost[-1]) or (maximize and new_cost < cost[-1])`. -/
def rejectCand (maximize : Bool) (newCost worst : ℚ) (viol : Bool) : Bool :=
  viol || (!maximize && decide (newCost > worst)) || (maximize && decide (newCost < worst))

/-- The insertion-scan test of lines 101-102: rank cost `c` is strictly worse
than the new cost under the optimization direction. -/
def strictlyWorse (maximize : Bool) (newCost c : ℚ) : Bool :=
  if maximize then decide (c < newCost) else decide (c > newCost)

/-- The front-to-back scan of lines 100-104: index of the first element
satisfying `p`, or `none` when the scan falls through without a `break`. -/
def scanInsertIdx {α : Type} (p : α → Bool) : List α → Option ℕ
  | [] => none
  | c :: cs => if p c then some 0 else (scanInsertIdx p cs).map (· + 1)

/-- One execution of the `while` body of `_Harmonizer.search` (lines 88-111)
on state `s`, given the candidate triple produced by the hooks.  Returns the
successor state and whether the body left the loop through the convergence
`break` of lines 106-107.  Rejection (lines 92-97) appends the current best
cost to the trace and leaves memory and `epoch` unchanged (`continue` skips
the `epoch += 1` of line 109).  Acceptance scans for the first strictly worse
rank and inserts there when one exists (lines 100-104); then either the
convergence test fires and the body breaks without touching `epoch` or the
trace, or `epoch` advances and the new best cost is appended (lines 109-111). -/
def bodyStep (maximize : Bool) (cand : Candidate) (s : LoopState) : LoopState × Bool :=
  let newMembers := cand.1
  let newCost := cand.2.1
  let viol := cand.2.2
  if rejectCand maximize newCost (s.memory.cost.getLastD 0) viol then
    ({ s with minCosts := s.minCosts ++ [s.memory.cost.headD 0] }, false)
  else
    let mem' :=
      match scanInsertIdx (strictlyWorse maximize newCost) s.memory.cost with
      | some i => s.memory.insert i newMembers newCost
      | none => s.memory
    if equalS (mem'.cost.headD 0) (mem'.cost.getLastD 0) then
      ({ s with memory := mem' }, true)
    else
      ({ memory := mem', epoch := s.epoch + 1,
         minCosts := s.minCosts ++ [mem'.cost.headD 0] }, false)

/-- Observable outcome of a terminating run of the `while` loop: the final
state, plus two observation-only fields not stored by the source — `iters`,
the number of loop-body executions that took place, and `broke`, whether the
loop ended through the convergence `break` rather than by `epoch` reaching
`n_iter`. -/
structure LoopResult where
  state : LoopState
  iters : ℕ
  broke : Bool
  deriving DecidableEq

/-- The `while epoch < self.n_iter` loop of lines 88-111, run with explicit
fuel: `none` means the loop had not terminated within `fuel` body executions.
`k` counts the loop-body executions so far and indexes the candidate stream. -/
def searchLoop (maximize : Bool) (nIter : ℕ) (gen : ℕ → Candidate) :
    ℕ → ℕ → LoopState → Option LoopResult
  | 0, _, _ => none
  | fuel + 1, k, s =>
    if s.epoch < nIter then
      let r := bodyStep maximize (gen k) s
      if r.2 then some ⟨r.1, k + 1, true⟩
      else searchLoop maximize nIter gen fuel (k + 1) r.1
    else some ⟨s, k, false⟩

/-- The state on entry to the loop (lines 84-87): the caller-seeded memory,
`epoch = 0`, and `min_costs = [memory.cost[0]]`. -/
def searchInit (m : HMemory) : LoopState :=
  { memory := m, epoch := 0, minCosts := [m.cost.headD 0] }

/-- `_Harmonizer.search` (lines 78-117): run the loop, then return
`(memory[0], min_costs)`. -/
def search (maximize : Bool) (nIter : ℕ) (gen : ℕ → Candidate) (m : HMemory)
    (fuel : ℕ) : Option (List ℚ × List ℚ) :=
  (searchLoop maximize nIter gen fuel 0 (searchInit m)).map
    (fun r => (r.state.memory.mem.headD [], r.state.minCosts))

/-- The scan of `_Harmonizer.multiple_search` over ranks 1.. (lines 130-143):
stop at the first rank whose cost is not `_equal` to the best cost; otherwise
append the rank's candidate vector to the collected solutions when it is not
`_similar` to any collected solution.  `rows`/`costs` are the memory contents
from rank 1 on; `cost0 = memory.cost[0]`. -/
def collectLoop (cost0 : ℚ) : List (List ℚ) → List ℚ → List (List ℚ) → List (List ℚ)
  | r :: rs, c :: cs, sols =>
    if equalS c cost0 then
      if sols.all (fun s => !(similarV r s)) then collectLoop cost0 rs cs (sols ++ [r])
      else collectLoop cost0 rs cs sols
    else sols
  | _, _, sols => sols

/-- `_Harmonizer.multiple_search` (lines 119-146): run `search()`, seed the
solution set with `memory[0]`, scan ranks 1.. for cost-tied non-similar
candidates, and return the solutions with the same trace. -/
def multipleSearch (maximize : Bool) (nIter : ℕ) (gen : ℕ → Candidate)
    (m : HMemory) (fuel : ℕ) : Option (List (List ℚ) × List ℚ) :=
  match searchLoop maximize nIter gen fuel 0 (searchInit m) with
  | none => none
  | some r =>
    let mem := r.state.memory
    let sols := collectLoop (mem.cost.headD 0) (mem.mem.drop 1) (mem.cost.drop 1)
      [mem.mem.headD []]
    some (sols, r.state.minCosts)

/-- The engine state `_Harmonizer` (lines 10-204) as far as `set` reads and
writes it: the public parameters, the stored callables, the stored seed, the
current seed of the private `RandomState` (`randSeed`; `RandomState(seed)` at
line 32, reseeded only by the `seed` setter of lines 194-197), the direction
flag, and the owned domain/memory data read at lines 45-46. -/
structure Engine where
  hmcr : ℚ
  par : ℚ
  n_iter : ℕ
  obj_func : List ℚ → ℚ
  constraint_func : List ℚ → Bool
  seed : Option ℤ
  randSeed : Option ℤ
  maximize : Bool
  domain : List (List ℚ)
  mem_size : ℕ
  memory : HMemory

/-- The `seed` property setter (lines 194-197): stores the new seed and
reseeds the private random source. -/
def Engine.seedSet (e : Engine) (s : Option ℤ) : Engine :=
  { e with seed := s, randSeed := s }

/-- The `**kwargs` dictionary a caller of `set` can actually supply.  In
Python, a keyword argument whose name matches a declared parameter of
`set(self, hmcr, par, n_iter, seed, maximize, **kwargs)` binds that parameter
(and combining it with a positional value raises `TypeError`), so the keys
`hmcr`, `par`, `n_iter`, `seed`, `maximize` can never appear in `kwargs`;
only the four keys below can. -/
structure SetKwargs where
  domain : Option (List (List ℚ))
  mem_size : Option ℕ
  obj_func : Option (List ℚ → ℚ)
  constraint_func : Option (List ℚ → Bool)

/-- Type of the subclass `__init__` invoked by the rebuild branch of `set`
(lines 71-74) with the nine merged parameters
`(domain, mem_size, obj_func, constraint_func, hmcr, par, n_iter, seed, maximize)`.
The concrete subclass is abstract in this source, so the rebuild call is
modelled against an arbitrary such function. -/
abbrev RebuildFn :=
  List (List ℚ) → ℕ → (List ℚ → ℚ) → (List ℚ → Bool) → ℚ → ℚ → ℕ → Option ℤ →
    Bool → Engine

/-- `_Harmonizer.set` (lines 35-76).  The merge loop of lines 66-67 computes
`new_params[key] = pre_params[key] if kwargs.get(key) is None else kwargs[key]`
for every key of `pre_params` — including `hmcr`, `par`, `n_iter`, `seed` and
`maximize`, whose `kwargs.get(key)` is always `None` because those names are
declared parameters of `set` and can never reach `**kwargs`; for those five
keys the merged value is therefore always the previous value and the
positional arguments are discarded.  The rebuild branch (lines 69-74) fires
only when one of the four `SetKwargs` keys is present; the reversal branch
(lines 75-76) tests `kwargs.get('maximize')`, which is always `None`, so it
never fires. -/
def Engine.set (rebuild : RebuildFn) (e : Engine) (hmcr par : ℚ) (n_iter : ℕ)
    (seed : Option ℤ) (maximize : Bool) (kwargs : SetKwargs) : Engine :=
  let newHmcr := e.hmcr
  let newPar := e.par
  let newNIter := e.n_iter
  let newSeed := e.seed
  let newMaximize := e.maximize
  let newDomain := kwargs.domain.getD e.domain
  let newMemSize := kwargs.mem_size.getD e.mem_size
  let newObj := kwargs.obj_func.getD e.obj_func
  let newCon := kwargs.constraint_func.getD e.constraint_func
  if kwargs.domain.isSome || kwargs.mem_size.isSome || kwargs.obj_func.isSome
      || kwargs.constraint_func.isSome then
    rebuild newDomain newMemSize newObj newCon newHmcr newPar newNIter newSeed
      newMaximize
  else
    match (none : Option Bool) with
    | some kwMax => if kwMax != e.maximize then { e with memory := e.memory.reverse } else e
    | none => e

/-- Rank order under the optimization direction: `a` is better-or-equal to
`b` when `a ≤ b` for minimize and `a ≥ b` for maximize. -/
def betterEq (maximize : Bool) (a b : ℚ) : Bool :=
  if maximize then decide (b ≤ a) else decide (a ≤ b)

/-- The memory rank invariant: the cost array is rank-ordered (pairwise
better-or-equal front to back) under the optimization direction. -/
def costSorted (maximize : Bool) (l : List ℚ) : Prop :=
  l.Sorted (fun a b => betterEq maximize a b = true)

/-! Concrete fixtures used by individual theorems below. -/

/-- Engine fixture: two-rank memory, rank-ordered for minimize, with distinct
rows so that a reversal would be visible. -/
def engineFlip : Engine :=
  { hmcr := 9 / 10, par := 2 / 10, n_iter := 1000,
    obj_func := fun _ => 0, constraint_func := fun _ => false,
    seed := some 1, randSeed := some 1, maximize := false,
    domain := [[0, 1]], mem_size := 2,
    memory := ⟨[[1], [2]], [1, 2]⟩ }

/-- Engine fixture for the parameter-update claim. -/
def engineParams : Engine :=
  { hmcr := 9 / 10, par := 2 / 10, n_iter := 1000,
    obj_func := fun _ => 0, constraint_func := fun _ => false,
    seed := some 1, randSeed := some 1, maximize := false,
    domain := [[0, 1]], mem_size := 2,
    memory := ⟨[[1], [2]], [1, 2]⟩ }

/-- Memory fixture for the all-rejected run. -/
def memAllRejected : HMemory := ⟨[[1], [2]], [1, 2]⟩

/-- Memory fixture for the indexing claim. -/
def memIndex : HMemory := ⟨[[1], [2]], [10, 20]⟩

/-- Memory fixture for the rank-invariant witness. -/
def memRank : HMemory := ⟨[[1], [2]], [1, 2]⟩

/-- Memory fixture for the insertion claim. -/
def memTail : HMemory := ⟨[[1], [2]], [10, 20]⟩

/-- Memory fixture for the insertion witness. -/
def memIns : HMemory := ⟨[[1], [2], [3]], [10, 20, 30]⟩

/-- Memory fixture for the trace-length counterexample: already-converged
costs, so the first accepted candidate triggers the convergence break. -/
def memConv : HMemory := ⟨[[7], [8]], [0, 0]⟩

/-- Memory fixture for the trace-length witness. -/
def memTrace : HMemory := ⟨[[4], [6]], [1, 2]⟩

/-- Memory fixture for the frame-effect counterexample: converged costs. -/
def memTie : HMemory := ⟨[[5], [6]], [0, 0]⟩

/-- State fixture for the frame-effect witness. -/
def stateFrame : LoopState := ⟨⟨[[1], [2]], [1, 2]⟩, 0, [1]⟩

/-- The loose-tolerance gap `atol + rtol`: two scalars exactly this far apart
are `_similar` in one direction (tolerance scaled by the larger operand) but
not in the other. -/
def simGap : ℚ := atolNp + epsF32 * 1000

/-- Memory fixture for the deduplication counterexample: two cost-tied rows
whose vectors are `simGap` apart. -/
def memDup : HMemory := ⟨[[1 - simGap], [1]], [0, 0]⟩

/-- Memory fixture for the deduplication witness. -/
def memDedup : HMemory := ⟨[[1], [2]], [5, 7]⟩

/-! Helper lemmas. -/

/-- Scalar `allclose` is monotone in the relative tolerance. -/
theorem allcloseS_mono {r1 r2 a b : ℚ} (hr : r1 ≤ r2)
    (h : allcloseS r1 a b = true) : allcloseS r2 a b = true := by
  unfold allcloseS at h ⊢
  rw [decide_eq_true_iff] at h ⊢
  have hb : (0 : ℚ) ≤ |b| := abs_nonneg b
  nlinarith

/-- Sequence `allclose` is monotone in the relative tolerance. -/
theorem allcloseV_mono {r1 r2 : ℚ} {xs ys : List ℚ} (hr : r1 ≤ r2)
    (h : allcloseV r1 xs ys = true) : allcloseV r2 xs ys = true := by
  unfold allcloseV at h ⊢
  rw [Bool.and_eq_true, List.all_eq_true] at h ⊢
  exact ⟨h.1, fun p hp => allcloseS_mono hr (h.2 p hp)⟩

/-- Shift-inserting at the head replaces the list by the new element followed
by everything but the old tail. -/
theorem shiftInsert_zero {α : Type} (l : List α) (x : α) :
    shiftInsert l 0 x = x :: l.dropLast := by
  simp [shiftInsert, List.dropLast_eq_take]

/-- Shift-inserting below a kept head commutes with the head. -/
theorem shiftInsert_cons_succ {α : Type} (c : α) (cs : List α) (i : ℕ) (x : α) :
    shiftInsert (c :: cs) (i + 1) x = c :: shiftInsert cs i x := by
  simp only [shiftInsert, List.take_succ_cons, List.drop_succ_cons, List.length_cons,
    List.cons_append]
  have h : cs.length + 1 - 1 - (i + 1) = cs.length - 1 - i := by omega
  rw [h]

/-- Every element of a shift-inserted list is the new element or an element
of the original list. -/
theorem mem_shiftInsert {α : Type} {l : List α} {i : ℕ} {x y : α}
    (h : y ∈ shiftInsert l i x) : y = x ∨ y ∈ l := by
  unfold shiftInsert at h
  rcases List.mem_append.1 h with h1 | h2
  · exact Or.inr (List.mem_of_mem_take h1)
  · rcases List.mem_cons.1 h2 with h3 | h4
    · exact Or.inl h3
    · exact Or.inr (List.mem_of_mem_drop (List.mem_of_mem_take h4))

/-- Scanning a sorted list front-to-back for the first element satisfying `p`
and shift-inserting `x` there preserves sortedness, provided `p`-failures sit
no later than `x` and `p`-successes sit after `x` in the order `r`. -/
theorem sorted_shiftInsert_of_scan {r : ℚ → ℚ → Prop} {p : ℚ → Bool} {x : ℚ}
    (htrans : ∀ a b c, r a b → r b c → r a c)
    (hpf : ∀ c, p c = false → r c x)
    (hpt : ∀ c, p c = true → r x c) :
    ∀ l : List ℚ, l.Sorted r →
      (match scanInsertIdx p l with
        | some i => shiftInsert l i x
        | none => l).Sorted r := by
  intro l
  induction l with
  | nil => intro _; simp [scanInsertIdx]
  | cons c cs ih =>
    intro hs
    have hcall : ∀ b ∈ cs, r c b := List.rel_of_sorted_cons hs
    have hcs : cs.Sorted r := hs.of_cons
    by_cases hc : p c = true
    · simp only [scanInsertIdx, hc, if_true]
      rw [shiftInsert_zero]
      refine List.sorted_cons.2 ⟨?_, hs.sublist (List.dropLast_sublist _)⟩
      intro b hb
      rcases List.mem_cons.1 (List.mem_of_mem_dropLast hb) with hb1 | hb2
      · exact hb1 ▸ hpt c hc
      · exact htrans x c b (hpt c hc) (hcall b hb2)
    · have hc' : p c = false := Bool.eq_false_iff.2 hc
      cases hscan : scanInsertIdx p cs with
      | none =>
        simp only [scanInsertIdx, hc', Bool.false_eq_true, if_false, hscan,
          Option.map_none']
        exact hs
      | some i =>
        simp only [scanInsertIdx, hc', Bool.false_eq_true, if_false, hscan,
          Option.map_some']
        rw [shiftInsert_cons_succ]
        have hX := ih hcs
        rw [hscan] at hX
        refine List.sorted_cons.2 ⟨?_, hX⟩
        intro b hb
        rcases mem_shiftInsert hb with hb1 | hb2
        · exact hb1 ▸ hpf c hc'
        · exact hcall b hb2

/-- The transitivity of the rank order. -/
theorem betterEq_trans (maximize : Bool) :
    ∀ a b c : ℚ, betterEq maximize a b = true → betterEq maximize b c = true →
      betterEq maximize a c = true := by
  intro a b c hab hbc
  cases maximize <;> simp only [betterEq, if_true, if_false, decide_eq_true_eq,
    Bool.false_eq_true, Bool.true_eq_false] at hab hbc ⊢
  · exact le_trans hab hbc
  · exact le_trans hbc hab

/-- A cost that fails the strictly-worse test is better-or-equal to the new
cost. -/
theorem betterEq_of_not_strictlyWorse (maximize : Bool) (x c : ℚ)
    (h : strictlyWorse maximize x c = false) : betterEq maximize c x = true := by
  cases maximize <;>
    simp only [strictlyWorse, betterEq, if_true, if_false, Bool.false_eq_true,
      Bool.true_eq_false, decide_eq_false_iff_not, decide_eq_true_eq, not_lt] at h ⊢ <;>
    exact h

/-- A cost that passes the strictly-worse test sits after the new cost in the
rank order. -/
theorem betterEq_of_strictlyWorse (maximize : Bool) (x c : ℚ)
    (h : strictlyWorse maximize x c = true) : betterEq maximize x c = true := by
  cases maximize <;>
    simp only [strictlyWorse, betterEq, if_true, if_false, Bool.false_eq_true,
      Bool.true_eq_false, decide_eq_true_eq] at h ⊢ <;>
    exact le_of_lt h

/-- The accepted-branch memory update of `search` (scan for the first
strictly worse rank, insert there, no insertion when the scan falls through)
preserves the rank invariant. -/
theorem costSorted_scan_insert (maximize : Bool) (newCost : ℚ) (m : HMemory)
    (newMembers : List ℚ) (hs : costSorted maximize m.cost) :
    costSorted maximize
      (match scanInsertIdx (strictlyWorse maximize newCost) m.cost with
        | some i => m.insert i newMembers newCost
        | none => m).cost := by
  have h := sorted_shiftInsert_of_scan (x := newCost)
    (betterEq_trans maximize)
    (betterEq_of_not_strictlyWorse maximize newCost)
    (betterEq_of_strictlyWorse maximize newCost) m.cost hs
  cases hscan : scanInsertIdx (strictlyWorse maximize newCost) m.cost with
  | none => rw [hscan] at h; exact h
  | some i => rw [hscan] at h; exact h

/-- One loop-body execution preserves the rank invariant of the memory, for
every candidate the hooks can produce. -/
theorem bodyStep_preserves_costSorted (maximize : Bool) (cand : Candidate)
    (s : LoopState) (hs : costSorted maximize s.memory.cost) :
    costSorted maximize ((bodyStep maximize cand s).1.memory.cost) := by
  simp only [bodyStep]
  split_ifs with h1 h2
  · exact hs
  · exact costSorted_scan_insert maximize cand.2.1 s.memory cand.1 hs
  · exact costSorted_scan_insert maximize cand.2.1 s.memory cand.1 hs

/-- The whole `while` loop preserves the rank invariant. -/
theorem searchLoop_preserves_costSorted (maximize : Bool) (nIter : ℕ)
    (gen : ℕ → Candidate) :
    ∀ (fuel k : ℕ) (s : LoopState) (r : LoopResult),
      searchLoop maximize nIter gen fuel k s = some r →
      costSorted maximize s.memory.cost →
      costSorted maximize r.state.memory.cost := by
  intro fuel
  induction fuel with
  | zero => intro k s r h; exact absurd h (by simp [searchLoop])
  | succ n ih =>
    intro k s r h hs
    rw [searchLoop] at h
    by_cases hiter : s.epoch < nIter
    · rw [if_pos hiter] at h
      by_cases hbrk : (bodyStep maximize (gen k) s).2 = true
      · rw [if_pos hbrk] at h
        cases h
        exact bodyStep_preserves_costSorted maximize (gen k) s hs
      · rw [if_neg hbrk] at h
        exact ih (k + 1) _ r h (bodyStep_preserves_costSorted maximize (gen k) s hs)
    · rw [if_neg hiter] at h
      cases h
      exact hs

/-- `_Memory.sort` establishes the rank invariant for the requested
direction. -/
theorem sort_costSorted (m : HMemory) (maximize : Bool) :
    costSorted maximize ((m.sort maximize).cost) := by
  haveI : IsTotal (ℚ × List ℚ) (fun a b => a.1 ≤ b.1) := ⟨fun a b => le_total a.1 b.1⟩
  haveI : IsTrans (ℚ × List ℚ) (fun a b => a.1 ≤ b.1) := ⟨fun _ _ _ => le_trans⟩
  have hasc := List.sorted_insertionSort (fun a b : ℚ × List ℚ => a.1 ≤ b.1)
    (m.cost.zip m.mem)
  unfold HMemory.sort costSorted
  cases maximize
  · simp only [Bool.false_eq_true, if_false]
    exact hasc.map _ (fun a b hab => by
      simp only [betterEq, Bool.false_eq_true, if_false, decide_eq_true_eq]
      exact hab)
  · simp only [if_true]
    have hrev : (List.insertionSort (fun a b : ℚ × List ℚ => a.1 ≤ b.1)
        (m.cost.zip m.mem)).reverse.Pairwise (fun a b : ℚ × List ℚ => b.1 ≤ a.1) :=
      List.pairwise_reverse.2 hasc
    exact hrev.map _ (fun a b hab => by
      simp only [betterEq, if_true, decide_eq_true_eq]
      exact hab)

/-- A rank-invariant cost array is better-or-equal at every adjacent pair of
ranks. -/
theorem costSorted_adjacent {maximize : Bool} {l : List ℚ}
    (h : costSorted maximize l) (i : ℕ) (hi : i + 1 < l.length) :
    betterEq maximize (l.getD i 0) (l.getD (i + 1) 0) = true := by
  have hp := List.pairwise_iff_getElem.1 h i (i + 1) (by omega) hi (by omega)
  rw [List.getD_eq_getElem?_getD, List.getD_eq_getElem?_getD,
    List.getElem?_eq_getElem (by omega : i < l.length),
    List.getElem?_eq_getElem hi]
  exact hp

/-- Shift-inserting below the length preserves the length. -/
theorem shiftInsert_length {α : Type} (l : List α) (i : ℕ) (x : α)
    (hi : i < l.length) : (shiftInsert l i x).length = l.length := by
  simp [shiftInsert]
  omega

/-- Entries in front of the insertion index are unchanged. -/
theorem shiftInsert_getElem?_of_lt {α : Type} (l : List α) (i : ℕ) (x : α)
    (j : ℕ) (hj : j < i) (hi : i < l.length) :
    (shiftInsert l i x)[j]? = l[j]? := by
  unfold shiftInsert
  rw [List.getElem?_append_left (by simp [List.length_take]; omega)]
  exact List.getElem?_take_of_lt hj

/-- The insertion index holds the new element. -/
theorem shiftInsert_getElem?_self {α : Type} (l : List α) (i : ℕ) (x : α)
    (hi : i < l.length) : (shiftInsert l i x)[i]? = some x := by
  unfold shiftInsert
  rw [List.getElem?_append_right (by simp [List.length_take])]
  have h : i - (l.take i).length = 0 := by simp [List.length_take]; omega
  rw [h, List.getElem?_cons_zero]

/-- Entries behind the insertion index hold the old entry one slot earlier. -/
theorem shiftInsert_getElem?_of_gt {α : Type} (l : List α) (i : ℕ) (x : α)
    (j : ℕ) (hij : i < j) (hj : j < l.length) :
    (shiftInsert l i x)[j]? = l[j - 1]? := by
  unfold shiftInsert
  rw [List.getElem?_append_right (by simp [List.length_take]; omega)]
  have h1 : j - (l.take i).length = (j - i - 1) + 1 := by simp [List.length_take]; omega
  rw [h1, List.getElem?_cons_succ, List.getElem?_take_of_lt (by omega),
    List.getElem?_drop]
  congr 1
  omega

/-- Effect of one loop-body execution on the trace: a breaking body leaves
the trace unchanged, a non-breaking body (rejection or accepted
continuation) appends exactly one entry. -/
theorem bodyStep_trace_effect (maximize : Bool) (cand : Candidate) (s : LoopState) :
    ((bodyStep maximize cand s).2 = true
      ∧ (bodyStep maximize cand s).1.minCosts = s.minCosts)
    ∨ ((bodyStep maximize cand s).2 = false
      ∧ (bodyStep maximize cand s).1.minCosts.length = s.minCosts.length + 1) := by
  simp only [bodyStep]
  split_ifs with h1 h2
  · exact Or.inr ⟨rfl, by simp⟩
  · exact Or.inl ⟨rfl, rfl⟩
  · exact Or.inr ⟨rfl, by simp⟩

/-- The collector preserves the one-directional non-similarity invariant:
each later-collected solution is not `_similar` to any earlier-collected
one. -/
theorem collectLoop_pairwise (cost0 : ℚ) :
    ∀ (rows : List (List ℚ)) (costs : List ℚ) (sols : List (List ℚ)),
      sols.Pairwise (fun a b => similarV b a = false) →
      (collectLoop cost0 rows costs sols).Pairwise (fun a b => similarV b a = false) := by
  intro rows
  induction rows with
  | nil => intro costs sols h; simpa [collectLoop] using h
  | cons r rs ih =>
    intro costs sols h
    cases costs with
    | nil => simpa [collectLoop] using h
    | cons c cs =>
      simp only [collectLoop]
      by_cases hc : equalS c cost0 = true
      · rw [if_pos hc]
        by_cases hall : sols.all (fun s => !(similarV r s)) = true
        · rw [if_pos hall]
          refine ih cs (sols ++ [r]) ?_
          rw [List.pairwise_append]
          refine ⟨h, List.pairwise_singleton _ _, ?_⟩
          intro a ha b hb
          rw [List.mem_singleton] at hb
          subst hb
          have := List.all_eq_true.1 hall a ha
          rwa [Bool.not_eq_true'] at this
        · rw [if_neg hall]
          exact ih cs sols h
      · rw [if_neg hc]
        exact h

/-! Theorems for the claims. -/

/-- C1: the claim says that when all `n_iter` generated candidates are
rejected, `search()` terminates after exactly `n_iter` loop iterations with a
trace of length `n_iter + 1`.  On the code this fails: the rejection path
(`continue` at line 97) never increments `epoch`, so when every candidate is
rejected the `while epoch < n_iter` loop never terminates.  This theorem
shows that for every candidate stream whose candidates all violate the
constraint (hence are all rejected), and for every fuel bound, the loop has
not terminated: `epoch` stays below `n_iter` forever. -/
theorem search_all_rejected_never_terminates (maximize : Bool) (nIter : ℕ)
    (gen : ℕ → Candidate) (hrej : ∀ k, (gen k).2.2 = true) :
    ∀ fuel k s, s.epoch < nIter → searchLoop maximize nIter gen fuel k s = none := by
  intro fuel
  induction fuel with
  | zero => intro k s _; rfl
  | succ n ih =>
    intro k s h
    have hb : bodyStep maximize (gen k) s =
        ({ s with minCosts := s.minCosts ++ [s.memory.cost.headD 0] }, false) := by
      unfold bodyStep rejectCand
      rw [hrej k]
      simp
    simp only [searchLoop, h, if_true, hb]
    exact ih (k + 1) _ h

/-- Witness for C1: a concrete all-rejecting run out of a rank-ordered
two-entry memory with `n_iter = 1` is still running after 5 loop-body
executions. -/
theorem search_all_rejected_never_terminates_witness :
    searchLoop false 1 (fun _ => ([0], 0, true)) 5 0 (searchInit memAllRejected) = none :=
  search_all_rejected_never_terminates false 1 (fun _ => ([0], 0, true))
    (fun _ => rfl) 5 0 (searchInit memAllRejected) (by decide)

/-- C2: the claim says `set(...)` changing only the `maximize` flag reverses
the memory in place.  On the code this fails: the reversal branch (lines
75-76) tests `kwargs.get('maximize')`, but `maximize` is a declared parameter
of `set`, so it can never appear in `**kwargs` and the branch never fires;
with no other parameter supplied, `set` leaves the engine's memory (and the
stored flag) entirely unchanged, for every possible subclass rebuild
function.  The second conjunct shows a reversal would have been observable. -/
theorem set_maximize_flip_leaves_memory_unchanged :
    ∀ rebuild : RebuildFn,
      (Engine.set rebuild engineFlip engineFlip.hmcr engineFlip.par
          engineFlip.n_iter engineFlip.seed true
          ⟨none, none, none, none⟩).memory = engineFlip.memory
      ∧ engineFlip.memory.reverse ≠ engineFlip.memory :=
  fun _ => ⟨rfl, by decide⟩

/-- C3: the claim says `set(...)` with new values for `hmcr`, `par`,
`n_iter` or `seed` (and none of the four rebuild keys) applies those values
and a changed seed reseeds the random source.  On the code this fails: the
merge loop of lines 66-67 reads those five values from `kwargs`, where they
can never appear (they are declared parameters of `set`), so the positional
arguments are discarded; with no rebuild key present neither branch runs and
`set` is a no-op — here with fresh values for all four parameters the entire
engine, its stored seed and its random source included, is returned
unchanged. -/
theorem set_param_updates_discarded :
    ∀ rebuild : RebuildFn,
      Engine.set rebuild engineParams (1 / 2) (3 / 10) 50 (some 42)
        engineParams.maximize ⟨none, none, none, none⟩ = engineParams :=
  fun _ => rfl

/-- C8 (amended): indexing the memory's candidate matrix or cost array with
an integer index fails with an out-of-range error exactly when the index is
below `-size` or at least `size`; a negative index in `[-size, -1]` instead
reads from the tail (Python/numpy negative indexing). -/
theorem memory_index_out_of_range_iff (m : HMemory) (i : ℤ) :
    (m.rowAt i = none ↔ i < -(m.mem.length : ℤ) ∨ (m.mem.length : ℤ) ≤ i)
    ∧ (m.costAt i = none ↔ i < -(m.size : ℤ) ∨ (m.size : ℤ) ≤ i) := by
  constructor
  · simp only [HMemory.rowAt, npGet]
    split_ifs with h1 h2
    · exact iff_of_false
        (fun hn => by rw [List.getElem?_eq_none_iff] at hn; omega) (by omega)
    · exact iff_of_false
        (fun hn => by rw [List.getElem?_eq_none_iff] at hn; omega) (by omega)
    · exact iff_of_true rfl (by omega)
  · simp only [HMemory.costAt, HMemory.size, npGet]
    split_ifs with h1 h2
    · exact iff_of_false
        (fun hn => by rw [List.getElem?_eq_none_iff] at hn; omega) (by omega)
    · exact iff_of_false
        (fun hn => by rw [List.getElem?_eq_none_iff] at hn; omega) (by omega)
    · exact iff_of_true rfl (by omega)

/-- Counterexample for C8: the claim as stated says every integer index
outside `[0, size)` fails, but the in-range-negative index `-1` successfully
reads the tail entry of both arrays. -/
theorem negative_index_reads_tail :
    memIndex.costAt (-1) = some 20 ∧ memIndex.rowAt (-1) = some [2]
    ∧ ((-1 : ℤ) < 0 ∨ (memIndex.size : ℤ) ≤ (-1 : ℤ)) := by
  refine ⟨by decide, by decide, Or.inl (by decide)⟩

/-- C9: `equal` implies `close` implies `similar` on operands of identical
shape (scalar with scalar, sequence with sequence of the same length), while
neither converse holds: `1` and `1 + 10⁻⁵` are `similar` but not `close`,
and `1` and `1 + 10⁻⁷` are `close` but not `equal`. -/
theorem tolerance_ordering :
    (∀ a b : ℚ, equalS a b = true → closeS a b = true)
    ∧ (∀ a b : ℚ, closeS a b = true → similarS a b = true)
    ∧ (∀ xs ys : List ℚ, equalV xs ys = true → closeV xs ys = true)
    ∧ (∀ xs ys : List ℚ, closeV xs ys = true → similarV xs ys = true)
    ∧ (similarS 1 (1 + 1 / 10 ^ 5) = true ∧ closeS 1 (1 + 1 / 10 ^ 5) = false)
    ∧ (closeS 1 (1 + 1 / 10 ^ 7) = true ∧ equalS 1 (1 + 1 / 10 ^ 7) = false) := by
  have h64 : epsF64 ≤ epsF32 := by norm_num [epsF64, epsF32]
  have h32 : epsF32 ≤ epsF32 * 1000 := by norm_num [epsF32]
  refine ⟨fun a b h => allcloseS_mono h64 h, fun a b h => allcloseS_mono h32 h,
    fun xs ys h => allcloseV_mono h64 h, fun xs ys h => allcloseV_mono h32 h,
    ⟨?_, ?_⟩, ⟨?_, ?_⟩⟩ <;>
    norm_num [similarS, closeS, equalS, allcloseS, epsF32, epsF64, atolNp,
      abs_of_pos, abs_of_nonpos]

/-- Witness for C9: the implications applied at a concrete equal pair. -/
theorem tolerance_ordering_witness :
    closeS 0 0 = true ∧ similarV [1] [1] = true :=
  ⟨tolerance_ordering.1 0 0 (by norm_num [equalS, allcloseS, epsF64, atolNp]),
   (tolerance_ordering.2.2.2.1 [1] [1])
     (by norm_num [closeV, allcloseV, allcloseS, epsF32, atolNp, abs_of_pos])⟩

/-- C5: for every reachable memory state of an engine — after the initial
`sort` and after every loop-body execution performed by `search` — every pair
of adjacent ranks `i`, `i+1` satisfies `cost[i]` better-or-equal `cost[i+1]`
under the configured direction (`≤` for minimize, `≥` for maximize): `sort`
establishes the rank invariant, one loop-body execution preserves it for any
candidate the hooks can produce (acceptance inserts at the first strictly
worse rank, so equal-cost incumbents are never displaced), and any
terminating run of the loop from a rank-ordered memory ends rank-ordered. -/
theorem rank_invariant_reachable :
    (∀ (m : HMemory) (maximize : Bool) (i : ℕ),
      i + 1 < (m.sort maximize).cost.length →
      betterEq maximize ((m.sort maximize).cost.getD i 0)
        ((m.sort maximize).cost.getD (i + 1) 0) = true)
    ∧ (∀ (maximize : Bool) (cand : Candidate) (s : LoopState) (i : ℕ),
        costSorted maximize s.memory.cost →
        i + 1 < ((bodyStep maximize cand s).1.memory.cost).length →
        betterEq maximize (((bodyStep maximize cand s).1.memory.cost).getD i 0)
          (((bodyStep maximize cand s).1.memory.cost).getD (i + 1) 0) = true)
    ∧ (∀ (maximize : Bool) (nIter : ℕ) (gen : ℕ → Candidate) (fuel : ℕ)
        (m : HMemory) (r : LoopResult) (i : ℕ),
        searchLoop maximize nIter gen fuel 0 (searchInit m) = some r →
        costSorted maximize m.cost →
        i + 1 < r.state.memory.cost.length →
        betterEq maximize (r.state.memory.cost.getD i 0)
          (r.state.memory.cost.getD (i + 1) 0) = true) :=
  ⟨fun m maximize i hi => costSorted_adjacent (sort_costSorted m maximize) i hi,
   fun maximize cand s i hs hi =>
     costSorted_adjacent (bodyStep_preserves_costSorted maximize cand s hs) i hi,
   fun maximize nIter gen fuel m r i hrun hs hi =>
     costSorted_adjacent
       (searchLoop_preserves_costSorted maximize nIter gen fuel 0 (searchInit m) r
         hrun hs) i hi⟩

/-- Witness for C5: a terminating concrete run (iteration budget 0) out of a
rank-ordered memory returns a memory whose adjacent ranks are ordered. -/
theorem rank_invariant_reachable_witness :
    betterEq false
      (((⟨searchInit memRank, 0, false⟩ : LoopResult).state.memory.cost).getD 0 0)
      (((⟨searchInit memRank, 0, false⟩ : LoopResult).state.memory.cost).getD 1 0)
      = true :=
  rank_invariant_reachable.2.2 false 0 (fun _ => ([0], 0, false)) 1 memRank
    ⟨searchInit memRank, 0, false⟩ 0 rfl
    (by norm_num [costSorted, betterEq, memRank, List.sorted_cons])
    (by decide)

/-- C6 (amended): for every memory and `0 ≤ rank_index < size`,
`insert(rank_index, candidate, cost)` keeps the memory length, leaves the
entries in front of `rank_index` in place, writes the new candidate and cost
at `rank_index`, and moves the entries previously at
`rank_index..size-2` one slot toward the tail; consequently the entry
previously at the tail rank `size-1` is removed at every insertion rank —
pushed off the tail when `rank_index < size-1` and overwritten in place when
`rank_index = size-1` — not only when `rank_index < size-1` as the claim
states. -/
theorem insert_shift_characterization (m : HMemory) (i : ℕ) (v : List ℚ) (c : ℚ)
    (hlen : m.mem.length = m.cost.length) (hi : i < m.size) :
    ((m.insert i v c).size = m.size ∧ (m.insert i v c).mem.length = m.mem.length)
    ∧ (∀ j, j < i → (m.insert i v c).cost[j]? = m.cost[j]?
        ∧ (m.insert i v c).mem[j]? = m.mem[j]?)
    ∧ ((m.insert i v c).cost[i]? = some c ∧ (m.insert i v c).mem[i]? = some v)
    ∧ (∀ j, i < j → j < m.size →
        (m.insert i v c).cost[j]? = m.cost[j - 1]?
        ∧ (m.insert i v c).mem[j]? = m.mem[j - 1]?) := by
  have hsz : m.size = m.cost.length := rfl
  have hic : i < m.cost.length := hi
  have him : i < m.mem.length := by omega
  refine ⟨⟨shiftInsert_length m.cost i c hic, shiftInsert_length m.mem i v him⟩,
    fun j hj => ⟨shiftInsert_getElem?_of_lt m.cost i c j hj hic,
      shiftInsert_getElem?_of_lt m.mem i v j hj him⟩,
    ⟨shiftInsert_getElem?_self m.cost i c hic, shiftInsert_getElem?_self m.mem i v him⟩,
    fun j hij hj => ⟨shiftInsert_getElem?_of_gt m.cost i c j hij hj,
      shiftInsert_getElem?_of_gt m.mem i v j hij (by omega)⟩⟩

/-- Witness for C6: the characterization applied to a concrete three-entry
memory at rank 0. -/
theorem insert_shift_characterization_witness :
    (memIns.insert 0 [9] 5).cost[0]? = some 5
    ∧ (memIns.insert 0 [9] 5).mem[0]? = some [9]
    ∧ (memIns.insert 0 [9] 5).size = memIns.size :=
  ⟨(insert_shift_characterization memIns 0 [9] 5 rfl (by decide)).2.2.1.1,
   (insert_shift_characterization memIns 0 [9] 5 rfl (by decide)).2.2.1.2,
   (insert_shift_characterization memIns 0 [9] 5 rfl (by decide)).1.1⟩

/-- C4 (amended): whenever `search()` terminates, it returns the rank-0
candidate together with the best-cost trace; when the loop exits by
exhausting the iteration budget, the trace has one entry per executed
loop-body iteration — rejected attempts included — plus the initial entry
(length = iterations + 1); when it exits early through the convergence break,
the final iteration contributes no entry and the length equals the number of
iterations executed. -/
theorem search_trace_length (maximize : Bool) (nIter : ℕ) (gen : ℕ → Candidate) :
    ∀ (fuel k : ℕ) (s : LoopState) (r : LoopResult),
      searchLoop maximize nIter gen fuel k s = some r →
      s.minCosts.length = k + 1 →
      r.state.minCosts.length = (if r.broke then r.iters else r.iters + 1) := by
  intro fuel
  induction fuel with
  | zero => intro k s r h _; exact absurd h (by simp [searchLoop])
  | succ n ih =>
    intro k s r h hinv
    rw [searchLoop] at h
    by_cases hiter : s.epoch < nIter
    · rw [if_pos hiter] at h
      rcases bodyStep_trace_effect maximize (gen k) s with ⟨hb, hm⟩ | ⟨hb, hm⟩
      · rw [if_pos hb, Option.some_inj] at h
        subst h
        simp only [if_true]
        rw [hm, hinv]
      · rw [if_neg (by simp [hb])] at h
        exact ih (k + 1) _ r h (by rw [hm, hinv])
    · rw [if_neg hiter, Option.some_inj] at h
      subst h
      simp only [Bool.false_eq_true, if_false]
      exact hinv

/-- Witness for C4: a terminating concrete run (iteration budget 0, exit by
exhaustion) whose trace length is the iteration count plus one. -/
theorem search_trace_length_witness :
    (searchInit memTrace).minCosts.length = (if (false : Bool) then 0 else 0 + 1) :=
  search_trace_length false 0 (fun _ => ([0], 0, true)) 1 0 (searchInit memTrace)
    ⟨searchInit memTrace, 0, false⟩ rfl rfl

/-- Counterexample for C4: the claim as stated says the trace always has
length 1 + (iterations executed).  In this run the first candidate is
accepted with a cost tying the already-converged memory, the convergence
break fires, one loop-body iteration executes, yet the returned trace is
only the initial entry, of length 1, not 2. -/
theorem trace_misses_final_converging_iteration :
    searchLoop false 5 (fun _ => ([3], 0, false)) 3 0 (searchInit memConv)
      = some ⟨searchInit memConv, 1, true⟩
    ∧ (searchInit memConv).minCosts.length = 1 := by
  refine ⟨?_, rfl⟩
  norm_num [searchLoop, bodyStep, rejectCand, strictlyWorse, scanInsertIdx,
    equalS, allcloseS, epsF64, atolNp, searchInit, memConv, List.getLastD,
    List.headD]

/-- C10 (amended): when a candidate passes the acceptance test but no memory
rank has a cost strictly worse than the candidate's under the optimization
direction, the candidate is discarded with no change to the memory; provided
best and worst memory costs are not then equal within double-precision
tolerance, the iteration still counts toward `n_iter` (`epoch` advances),
the convergence check has run (negatively), and the best-cost trace gains
one entry.  (When best equals worst the loop instead breaks immediately,
without advancing `epoch` or extending the trace — there the unamended claim
fails, see the counterexample.) -/
theorem accepted_uninserted_candidate_frame (maximize : Bool) (mems : List ℚ)
    (newCost : ℚ) (viol : Bool) (s : LoopState)
    (hacc : rejectCand maximize newCost (s.memory.cost.getLastD 0) viol = false)
    (hscan : scanInsertIdx (strictlyWorse maximize newCost) s.memory.cost = none)
    (hconv : equalS (s.memory.cost.headD 0) (s.memory.cost.getLastD 0) = false) :
    bodyStep maximize (mems, newCost, viol) s
      = ({ memory := s.memory, epoch := s.epoch + 1,
           minCosts := s.minCosts ++ [s.memory.cost.headD 0] }, false) := by
  simp only [bodyStep, hacc, hscan, hconv, Bool.false_eq_true, if_false]

/-- Witness for C10: a concrete accepted candidate tying the worst cost of a
non-converged memory leaves the memory unchanged while the epoch advances
and the trace grows. -/
theorem accepted_uninserted_candidate_frame_witness :
    bodyStep false ([9], 2, false) stateFrame
      = ({ memory := stateFrame.memory, epoch := stateFrame.epoch + 1,
           minCosts := stateFrame.minCosts ++ [stateFrame.memory.cost.headD 0] },
         false) :=
  accepted_uninserted_candidate_frame false [9] 2 false stateFrame
    (by norm_num [rejectCand, stateFrame, List.getLastD])
    (by norm_num [scanInsertIdx, strictlyWorse, stateFrame])
    (by norm_num [equalS, allcloseS, epsF64, atolNp, stateFrame, List.getLastD,
      List.headD, abs_of_nonpos])

/-- Counterexample for C10: the claim as stated also asserts that the
iteration counts toward `n_iter` and the trace gains an entry.  Here a
candidate passes the acceptance test (first conjunct) and no rank is
strictly worse (second conjunct), but the memory was already converged, so
the body breaks returning the state unchanged: `epoch` does not advance and
the trace gains no entry (third conjunct). -/
theorem accepted_tie_on_converged_memory_breaks :
    rejectCand false 0 (memTie.cost.getLastD 0) false = false
    ∧ scanInsertIdx (strictlyWorse false 0) memTie.cost = none
    ∧ bodyStep false ([9], 0, false) (searchInit memTie) = (searchInit memTie, true) := by
  refine ⟨by norm_num [rejectCand, memTie, List.getLastD],
    by norm_num [scanInsertIdx, strictlyWorse, memTie], ?_⟩
  norm_num [bodyStep, rejectCand, strictlyWorse, scanInsertIdx, equalS,
    allcloseS, epsF64, atolNp, searchInit, memTie, List.getLastD, List.headD]

/-- C7 (amended): every solution `multiple_search` adds after the first
passes the one-directional check `not _similar(candidate, earlier)` against
every already-collected solution, so the returned solution set is pairwise
non-similar in that direction: for `i < j`, `_similar(sols[j], sols[i])` is
false.  Because `_similar` delegates to the asymmetric `np.allclose` (the
relative tolerance scales the second operand only), the symmetric reading of
the claim fails — see the counterexample. -/
theorem multiple_search_dedup_one_directional (maximize : Bool) (nIter : ℕ)
    (gen : ℕ → Candidate) (m : HMemory) (fuel : ℕ) (sols : List (List ℚ))
    (trace : List ℚ)
    (h : multipleSearch maximize nIter gen m fuel = some (sols, trace)) :
    sols.Pairwise (fun a b => similarV b a = false) := by
  unfold multipleSearch at h
  cases hrun : searchLoop maximize nIter gen fuel 0 (searchInit m) with
  | none => rw [hrun] at h; exact absurd h (by simp)
  | some r =>
    rw [hrun, Option.some_inj] at h
    have hs : sols = collectLoop (r.state.memory.cost.headD 0)
        (r.state.memory.mem.drop 1) (r.state.memory.cost.drop 1)
        [r.state.memory.mem.headD []] := by
      have := congrArg Prod.fst h
      exact this.symm
    rw [hs]
    exact collectLoop_pairwise _ _ _ _ (List.pairwise_singleton _ _)

/-- Witness for C7: a concrete terminating run returning a single solution,
trivially pairwise non-similar. -/
theorem multiple_search_dedup_one_directional_witness :
    ([[ (1 : ℚ) ]] : List (List ℚ)).Pairwise (fun a b => similarV b a = false) :=
  multiple_search_dedup_one_directional false 0 (fun _ => ([0], 0, true))
    memDedup 1 [[1]] [5]
    (by norm_num [multipleSearch, searchLoop, searchInit, collectLoop, equalS,
      allcloseS, epsF64, atolNp, memDedup, List.headD, abs_of_nonpos])

/-- Counterexample for C7: with two cost-tied memory rows whose vectors are
exactly `atol + rtol` apart, `multiple_search` returns both (the check
`_similar(new, first)` scales the tolerance by the smaller first solution
and fails), yet the two returned solutions are `_similar` in the other
direction — the symmetric claim "no two returned solutions are similar to
each other" is violated. -/
theorem multiple_search_returns_similar_pair :
    multipleSearch false 0 (fun _ => ([0], 0, true)) memDup 1
      = some ([[1 - simGap], [1]], [0])
    ∧ similarV [1 - simGap] [1] = true := by
  constructor
  · norm_num [multipleSearch, searchLoop, searchInit, collectLoop, equalS,
      similarV, allcloseV, allcloseS, epsF64, epsF32, atolNp, memDup, simGap,
      List.headD, abs_of_nonpos, abs_of_pos, abs_of_nonneg]
  · norm_num [similarV, allcloseV, allcloseS, epsF32, atolNp, simGap,
      abs_of_nonpos, abs_of_pos, abs_of_nonneg]

/-- Counterexample for C6: inserting at the tail rank `size-1` also removes
the previous worst entry — it is overwritten by the new one — so the claimed
equivalence "the previous worst entry is dropped exactly when insertion
occurs at a rank < size-1" fails in the rank = size-1 case. -/
theorem insert_at_tail_also_drops_worst :
    (memTail.insert 1 [3] 30).cost = [10, 30]
    ∧ (20 : ℚ) ∈ memTail.cost ∧ (20 : ℚ) ∉ (memTail.insert 1 [3] 30).cost := by
  refine ⟨rfl, by decide, by decide⟩

end Harmony
